import Mathlib

/-!
Verification development for a MacPaint file codec (macpaint.py, formats.py).

Bytes are modelled as natural numbers (each in [0,256) where it matters), byte
strings as `List Nat`, pixel grids as `List (List Nat)`.  Fatal Python errors
(uncaught exceptions: IndexError, struct.error, assert, RuntimeError) are
modelled by `Option`: `none` means the operation aborts.

Loops that advance an index by a data-dependent amount are translated with an
explicit fuel argument so that every definition is structurally recursive and
kernel-computable.  In each case the initial fuel is provably sufficient
(each loop iteration consumes at least one unit of input); fuel-independence
lemmas below make the step equations available for arbitrary inputs.
-/

set_option maxRecDepth 40000

namespace MacPaintModel

/-! ### chunks (macpaint.py, formats.py): successive n-sized chunks of a list -/

/-- Fuel-driven body of the chunks helper.  One chunk is produced per step;
fuel at least the list length is always enough since n is at least 1 in
every use (n = 72 or n = 8). -/
def chunksAux {α : Type*} (n : ℕ) : ℕ → List α → List (List α)
  | _, [] => []
  | 0, _ :: _ => []
  | fuel + 1, a :: rest => (a :: rest).take n :: chunksAux n fuel (rest.drop (n - 1))

/-- Translation of the chunks generator: successive n-sized chunks of a list,
the last chunk possibly shorter. -/
def chunks {α : Type*} (n : ℕ) (l : List α) : List (List α) :=
  chunksAux n l.length l

/-! ### Run-length decoder: MacPaintFile._unpack_bits (macpaint.py lines 132-154)

The Python loop reads a header byte at position i.  Header 128 is skipped;
a header above 128 reads one payload byte (IndexError, hence `none`, when it
is missing) and emits it 256 - header + 1 times; a header below 128 emits the
slice data[i+1 : i+1+header+1] verbatim -- a Python slice, which silently
truncates at the end of the input. -/

/-- Fuel-driven body of the decoder; fuel equal to the input length is always
sufficient since every step consumes at least the header byte. -/
def unpackBitsAux : ℕ → List ℕ → Option (List ℕ)
  | _, [] => some []
  | 0, _ :: _ => none
  | fuel + 1, header :: rest =>
    if header = 128 then
      unpackBitsAux fuel rest
    else if 128 < header then
      match rest with
      | [] => none
      | b :: rest2 =>
        (unpackBitsAux fuel rest2).map (fun r => List.replicate (256 - header + 1) b ++ r)
    else
      (unpackBitsAux fuel (rest.drop (header + 1))).map (fun r => rest.take (header + 1) ++ r)

/-- Translation of MacPaintFile._unpack_bits. -/
def unpackBits (data : List ℕ) : Option (List ℕ) :=
  unpackBitsAux data.length data

/-! ### Run-length encoder: _pack_bits (macpaint.py lines 17-57)

The Python function scans the line with index i while i < len(line) - 3.
A run branch compresses maximal groups of equal bytes (capped at 127); a
literal branch scans ahead for the next 3-byte run.  The loop guard
i < len(line) - 3 is translated verbatim (with truncated ℕ subtraction,
which agrees with the Python comparison since i is non-negative). -/

/-- Test line[j : j+3] == [line[j]] * 3, as both branch guards do.  At every
call site the slice has exactly 3 elements. -/
def chk (line : List ℕ) (j : ℕ) : Bool :=
  (line.drop j).take 3 == List.replicate 3 (line.getD j 0)

/-- Inner while loop of the run branch: advance j while line[j] equals the
run byte, j is in range and j - i < 127.  The cap means at most 127
iterations, so fuel 128 is always enough. -/
def runEndAux (line : List ℕ) (b i : ℕ) : ℕ → ℕ → ℕ
  | 0, j => j
  | fuel + 1, j =>
    if j < line.length ∧ line.getD j 0 = b ∧ j - i < 127 then
      runEndAux line b i fuel (j + 1)
    else j

/-- Inner while loop of the literal branch: advance j until a 3-byte run
starts at j, the span reaches 127 bytes, or the window reaches the end of
the line (then j jumps to len(line)).  At most 126 iterations, so fuel 128
is always enough. -/
def literalEndAux (line : List ℕ) (i : ℕ) : ℕ → ℕ → ℕ
  | 0, j => j
  | fuel + 1, j =>
    if j - i < 127 ∧ ¬ chk line j then
      if j + 1 + 3 > line.length then line.length
      else literalEndAux line i fuel (j + 1)
    else j

/-- Outer while loop of _pack_bits.  Each iteration advances i by at least 1,
so fuel length + 1 is always enough. -/
def packBitsAux (line : List ℕ) : ℕ → ℕ → List ℕ
  | 0, _ => []
  | fuel + 1, i =>
    if i < line.length - 3 then
      if chk line i then
        let j := runEndAux line (line.getD i 0) i 128 i
        (256 - (j - i) + 1) :: line.getD i 0 :: packBitsAux line fuel j
      else
        let j := if i + 1 + 3 < line.length then literalEndAux line i 128 (i + 1)
                 else line.length
        ((j - i - 1) :: (line.drop i).take (j - i)) ++ packBitsAux line fuel j
    else []

/-- Translation of _pack_bits. -/
def packBits (line : List ℕ) : List ℕ :=
  packBitsAux line (line.length + 1) 0

/-! ### Header (macpaint.py lines 60-93)

Python parses the version with struct.unpack("=I", raw[:4]) -- native byte
order, modelled as little-endian (x86-64 host) -- and re-encodes it with
struct.pack(">I", version), big-endian.  struct.unpack raises struct.error
(fatal) when the buffer slice has the wrong size, which happens exactly when
fewer than 308 bytes are supplied; the reserved field keeps every byte from
offset 308 to the end of whatever buffer was passed in.  Header.from_file
passes the ENTIRE file contents to parse, not just the leading 512 bytes. -/

/-- Little-endian (host byte order) 32-bit read of the first four bytes. -/
def natLE32 (l : List ℕ) : ℕ :=
  l.getD 0 0 + 256 * l.getD 1 0 + 65536 * l.getD 2 0 + 16777216 * l.getD 3 0

/-- Little-endian four-byte encoding of a 32-bit value. -/
def bytesLE32 (v : ℕ) : List ℕ :=
  [v % 256, v / 256 % 256, v / 65536 % 256, v / 16777216 % 256]

/-- Big-endian four-byte encoding of a 32-bit value, as struct.pack(">I", v). -/
def bytesBE32 (v : ℕ) : List ℕ :=
  [v / 16777216 % 256, v / 65536 % 256, v / 256 % 256, v % 256]

/-- Translation of the Header class: version, 38 pattern blocks, reserved
trailing bytes, and the raw bytes the header was parsed from. -/
structure Header where
  version : ℕ
  patterns : List (List ℕ)
  reserved : List ℕ
  raw_str : List ℕ
deriving DecidableEq

/-- Translation of Header.parse.  struct.unpack of "=I" on raw[:4] and of 38
8-byte blocks on raw[4:308] both fail (struct.error, fatal) unless raw has at
least 308 bytes; raw[308:] becomes the reserved field whatever its length. -/
def Header.parse (raw : List ℕ) : Option Header :=
  if 308 ≤ raw.length then
    some ⟨natLE32 (raw.take 4), chunks 8 ((raw.drop 4).take 304), raw.drop 308, raw⟩
  else none

/-- Translation of Header.gen_default: version 0, 304 one-byte zero pattern
entries (the source builds 304 single NUL bytes, not 38 8-byte blocks),
204 zero reserved bytes, empty raw data. -/
def Header.genDefault : Header :=
  ⟨0, List.replicate 304 [0], List.replicate 204 0, []⟩

/-- Translation of Header.pack: big-endian version, then the concatenated
pattern blocks, then the reserved bytes. -/
def Header.pack (h : Header) : List ℕ :=
  bytesBE32 h.version ++ h.patterns.flatten ++ h.reserved

/-! ### MacPaintFile (macpaint.py lines 95-221) -/

/-- WIDTH = 576, HEIGHT = 720, WHITE = 255, BLACK = 0. -/
def WIDTH : ℕ := 576

def HEIGHT : ℕ := 720

def WHITE : ℕ := 255

def BLACK : ℕ := 0

/-- One step of the bit-packing inner loop of _gen_packed_data: the byte for
an 8-pixel chunk, MSB first, bit set exactly when the pixel equals BLACK (0).
Any other pixel value, 255 or not, leaves the bit clear. -/
def byteOf (chunk : List ℕ) : ℕ :=
  (List.range 8).foldl
    (fun byte j => if chunk.getD j 0 = BLACK then byte ||| (1 <<< (7 - j)) else byte) 0

/-- Fuel-driven body of the per-row loop of _gen_packed_data: consume the row
eight pixels at a time; reading past the end of the row (row length not a
multiple of 8) is an IndexError, hence none.  Fuel at least the row length
is always enough since every step consumes eight pixels. -/
def rowToBitsAux : ℕ → List ℕ → Option (List ℕ)
  | _, [] => some []
  | 0, _ :: _ => none
  | fuel + 1, p :: rest =>
    if 7 ≤ rest.length then
      (rowToBitsAux fuel (rest.drop 7)).map (fun bs => byteOf ((p :: rest).take 8) :: bs)
    else none

/-- The packed bit line of one bitmap row. -/
def rowToBits (row : List ℕ) : Option (List ℕ) :=
  rowToBitsAux row.length row

/-- Translation of _gen_packed_data: per bitmap row, build the 72-byte packed
bit line (IndexError if the row length is not a multiple of 8), assert that
it has WIDTH / 8 = 72 bytes (AssertionError otherwise), compress it with
_pack_bits and concatenate the results. -/
def genPackedData : List (List ℕ) → Option (List ℕ)
  | [] => some []
  | row :: rest =>
    match rowToBits row with
    | none => none
    | some bitLine =>
      if bitLine.length = 72 then
        (genPackedData rest).map (fun bs => packBits bitLine ++ bs)
      else none

/-- Translation of the MacPaintFile object state after construction: header,
compressed data, decompressed scanlines, and the optional cached bitmap
(None unless a bitmap was supplied to the constructor). -/
structure MacPaintFile where
  header : Header
  data : List ℕ
  scanlines : List (List ℕ)
  bitmapCached : Option (List (List ℕ))
deriving DecidableEq

/-- Translation of MacPaintFile.__init__: decompress the data (a fatal
decode error propagates), split into rows of WIDTH / 8 = 72 bytes, discard
excess rows beyond HEIGHT = 720 (printing a warning, taken when the chunk
count exceeds 720), then assert exactly 720 rows remain (AssertionError,
hence none, otherwise). -/
def MacPaintFile.make (header : Header) (data : List ℕ)
    (bitmap : Option (List (List ℕ))) : Option MacPaintFile :=
  match unpackBits data with
  | none => none
  | some decompressed =>
    let scanlines0 := chunks 72 decompressed
    let scanlines1 := if 720 < scanlines0.length then scanlines0.take 720 else scanlines0
    if scanlines1.length = 720 then some ⟨header, data, scanlines1, bitmap⟩ else none

/-- Translation of MacPaintFile.from_scanlines: pack the bitmap, then build
the object with the default header and the bitmap cached. -/
def fromScanlines (bitmap : List (List ℕ)) : Option MacPaintFile :=
  match genPackedData bitmap with
  | none => none
  | some packedBits => MacPaintFile.make Header.genDefault packedBits (some bitmap)

/-- The 8 pixels of one packed byte, MSB first; set bit means BLACK (0),
clear bit means WHITE (255), as in _generate_bitmap. -/
def byteToPixels (byte : ℕ) : List ℕ :=
  (List.range 8).map (fun k => if 0 < byte &&& (1 <<< (7 - k)) then BLACK else WHITE)

/-- Translation of MacPaintFile._generate_bitmap: each scanline must supply
WIDTH / 8 = 72 bytes (IndexError, hence none, if one is shorter); each byte
expands to 8 pixels. -/
def MacPaintFile.generateBitmap (f : MacPaintFile) : Option (List (List ℕ)) :=
  f.scanlines.mapM (fun sl =>
    if 72 ≤ sl.length then some (((sl.take 72).map byteToPixels).flatten) else none)

/-- Translation of the MacPaintFile.bitmap property: return the cached bitmap
when one was supplied at construction, otherwise derive it from the
scanlines with _generate_bitmap. -/
def MacPaintFile.bitmapView (f : MacPaintFile) : Option (List (List ℕ)) :=
  match f.bitmapCached with
  | some b => some b
  | none => f.generateBitmap

/-! ### Canvas normalization: MacPaintFile.from_png (macpaint.py lines 180-201)

The reader yields (width, height, rows); the block below the read call crops
or pads rows to the fixed canvas: height adjustment first (truncate trailing
rows / append WHITE rows of length WIDTH), then width adjustment (truncate
each row / right-pad EVERY current row, including rows appended by the
height step, with WHITE pixels). -/

def fromPngNormalize (width height : ℕ) (rows : List (List ℕ)) : List (List ℕ) :=
  let rows1 := if HEIGHT < height then rows.take HEIGHT else rows
  let rows2 := if height < HEIGHT then
      rows1 ++ List.replicate (HEIGHT - height) (List.replicate WIDTH WHITE)
    else rows1
  let rows3 := if WIDTH < width then rows2.map (fun row => row.take WIDTH) else rows2
  if width < WIDTH then rows3.map (fun row => row ++ List.replicate (WIDTH - width) WHITE)
  else rows3

/-! ### Atkinson dithering: dither (formats.py lines 16-45)

The Python error accumulator holds floats.  Every value that arises is a sum
of inputs divided by powers of two (the only division is by 8), i.e. a small
dyadic rational, and IEEE-754 double arithmetic is exact on these at the
magnitudes involved, so the float computation is modelled exactly by dyadic
rationals: num / 2 ^ exp. -/

/-- Dyadic rational num / 2 ^ exp; models the exact value of a Python float
in the dither pass. -/
structure Dy where
  num : ℤ
  exp : ℕ
deriving DecidableEq

def Dy.ofNat (n : ℕ) : Dy := ⟨n, 0⟩

def Dy.add (a b : Dy) : Dy :=
  ⟨a.num * 2 ^ (max a.exp b.exp - a.exp) + b.num * 2 ^ (max a.exp b.exp - b.exp),
   max a.exp b.exp⟩

def Dy.sub (a b : Dy) : Dy :=
  ⟨a.num * 2 ^ (max a.exp b.exp - a.exp) - b.num * 2 ^ (max a.exp b.exp - b.exp),
   max a.exp b.exp⟩

/-- Exact division by 8 (Python float division by 8 is exact on dyadics). -/
def Dy.div8 (a : Dy) : Dy := ⟨a.num, a.exp + 3⟩

/-- Strict comparison a < b of the represented values. -/
def Dy.blt (a b : Dy) : Bool :=
  a.num * 2 ^ (max a.exp b.exp - a.exp) < b.num * 2 ^ (max a.exp b.exp - b.exp)

/-- The six Atkinson neighbor offsets (x_offset, y_offset) in source order;
the x offset can be negative. -/
def xyOffsets : List (ℤ × ℕ) := [(1, 0), (2, 0), (-1, 1), (0, 1), (1, 1), (0, 2)]

/-- Python semantics of errors[y][x_index] += err for the inner list: a
non-negative index within range updates that position; a NEGATIVE index down
to -len wraps around and updates position len + index (this is how Python
indexes from the end); anything else raises IndexError, which the source
catches and ignores. -/
def pyListAddAt (row : List Dy) (k : ℤ) (v : Dy) : List Dy :=
  if 0 ≤ k ∧ k < (row.length : ℤ) then
    row.set k.toNat (Dy.add (row.getD k.toNat (Dy.ofNat 0)) v)
  else if -(row.length : ℤ) ≤ k ∧ k < 0 then
    row.set (k + row.length).toNat (Dy.add (row.getD (k + row.length).toNat (Dy.ofNat 0)) v)
  else row

/-- Python semantics of errors[y + dy][...]: a row index beyond the last row
raises IndexError (caught and ignored); the row index is never negative
since the y offsets are 0, 1, 2. -/
def pyAddErr (errors : List (List Dy)) (y : ℕ) (k : ℤ) (v : Dy) : List (List Dy) :=
  if y < errors.length then errors.set y (pyListAddAt (errors.getD y []) k v) else errors

/-- The error-distribution loop body of dither: add err at all six neighbor
positions with Python indexing semantics. -/
def distributeErr (errors : List (List Dy)) (y x : ℕ) (err : Dy) : List (List Dy) :=
  xyOffsets.foldl (fun es off => pyAddErr es (y + off.2) ((x : ℤ) + off.1) err) errors

/-- Inner pixel loop of dither for row y: threshold each pixel at 128 after
adding the accumulated error, emit WHITE/BLACK, distribute the quantization
error divided by 8.  Reading errors[y][x] raises IndexError (uncaught,
fatal) when x reaches past the length of the error row. -/
def ditherRow (y : ℕ) : List ℕ → ℕ → List (List Dy) → Option (List ℕ × List (List Dy))
  | [], _, errors => some ([], errors)
  | b :: rest, x, errors =>
    match (errors.getD y []).get? x with
    | none => none
    | some e =>
      let pix := Dy.add (Dy.ofNat b) e
      let col := if Dy.blt (Dy.ofNat 128) pix then Dy.ofNat 255 else Dy.ofNat 0
      let err := Dy.div8 (Dy.sub pix col)
      let errors2 := distributeErr errors y x err
      let out := if Dy.blt (Dy.ofNat 128) pix then WHITE else BLACK
      (ditherRow y rest (x + 1) errors2).map (fun p => (out :: p.1, p.2))

/-- Outer row loop of dither. -/
def ditherAux : List (List ℕ) → ℕ → List (List Dy) → Option (List (List ℕ))
  | [], _, _ => some []
  | row :: rest, y, errors =>
    match ditherRow y row 0 errors with
    | none => none
    | some (outRow, errors2) => (ditherAux rest (y + 1) errors2).map (fun rs => outRow :: rs)

/-- Translation of dither (formats.py): the error accumulator has one row of
zeros per input row, each of the length of the FIRST input row. -/
def dither (greyRows : List (List ℕ)) : Option (List (List ℕ)) :=
  ditherAux greyRows 0
    (List.replicate greyRows.length (List.replicate (greyRows.headD []).length (Dy.ofNat 0)))

/-! ### Dithering as the spec words it

Modelled from the spec: identical to the translation above except that the
error share of a neighbor that falls outside the image bounds is dropped --
never wrapped to another position.  Used to compare the code against the
spec sentence of claim C2. -/

/-- Spec-worded neighbor update: only a genuinely in-bounds (non-negative)
index receives an error share. -/
def specListAddAt (row : List Dy) (k : ℤ) (v : Dy) : List Dy :=
  if 0 ≤ k ∧ k < (row.length : ℤ) then
    row.set k.toNat (Dy.add (row.getD k.toNat (Dy.ofNat 0)) v)
  else row

def specAddErr (errors : List (List Dy)) (y : ℕ) (k : ℤ) (v : Dy) : List (List Dy) :=
  if y < errors.length then errors.set y (specListAddAt (errors.getD y []) k v) else errors

def specDistributeErr (errors : List (List Dy)) (y x : ℕ) (err : Dy) : List (List Dy) :=
  xyOffsets.foldl (fun es off => specAddErr es (y + off.2) ((x : ℤ) + off.1) err) errors

def specDitherRow (y : ℕ) :
    List ℕ → ℕ → List (List Dy) → Option (List ℕ × List (List Dy))
  | [], _, errors => some ([], errors)
  | b :: rest, x, errors =>
    match (errors.getD y []).get? x with
    | none => none
    | some e =>
      let pix := Dy.add (Dy.ofNat b) e
      let col := if Dy.blt (Dy.ofNat 128) pix then Dy.ofNat 255 else Dy.ofNat 0
      let err := Dy.div8 (Dy.sub pix col)
      let errors2 := specDistributeErr errors y x err
      let out := if Dy.blt (Dy.ofNat 128) pix then WHITE else BLACK
      (specDitherRow y rest (x + 1) errors2).map (fun p => (out :: p.1, p.2))

def specDitherAux : List (List ℕ) → ℕ → List (List Dy) → Option (List (List ℕ))
  | [], _, _ => some []
  | row :: rest, y, errors =>
    match specDitherRow y row 0 errors with
    | none => none
    | some (outRow, errors2) =>
      (specDitherAux rest (y + 1) errors2).map (fun rs => outRow :: rs)

/-- Modelled from the spec: Atkinson dithering with out-of-bounds error
shares dropped. -/
def ditherSpecModel (greyRows : List (List ℕ)) : Option (List (List ℕ)) :=
  specDitherAux greyRows 0
    (List.replicate greyRows.length (List.replicate (greyRows.headD []).length (Dy.ofNat 0)))

-- Sanity check: the Python version wraps the (-1, +1) share of pixel (0, 0)
-- to the end of the next error row; the spec version drops it.  On this
-- 2 x 2 input the wrapped share flips the output pixel at (1, 1).

/-! ### Helper facts about packing specific bitmaps -/

/-- A 720 x 576 bitmap, all WHITE except the top-left pixel, which holds v. -/
def pixelBitmap (v : ℕ) : List (List ℕ) :=
  (v :: List.replicate 575 255) :: List.replicate 719 (List.replicate 576 255)

/-- The packed data of an all-white canvas: 720 copies of the run block
[185, 0]. -/
def whitePackedData : List ℕ := (List.replicate 720 [185, 0]).flatten

/-- The MacPaintFile object produced for such a bitmap. -/
def pixelFile (v : ℕ) : MacPaintFile :=
  ⟨Header.genDefault, whitePackedData,
   List.replicate 720 (List.replicate 72 0), some (pixelBitmap v)⟩

/-- Compressed data that decompresses to 725 rows of 72 zero bytes. -/
def excessData : List ℕ := (List.replicate 725 [185, 0]).flatten

/-- Concrete 512-byte input for the header round-trip witness: a non-zero
version and zeroed patterns and reserved bytes. -/
def wraw : List ℕ := [1, 2, 3, 4] ++ List.replicate 508 0

/-- The header that parsing wraw produces (version read little-endian). -/
def wHdr : Header :=
  ⟨67305985, List.replicate 38 (List.replicate 8 0), List.replicate 204 0, wraw⟩

/-- The all-white 720 x 576 bitmap. -/
def allWhiteBitmap : List (List ℕ) := List.replicate 720 (List.replicate 576 255)

/-! ### Theorems -/

theorem chunksAux_congr {α : Type*} (n : ℕ) :
    ∀ (f : ℕ) (g : ℕ) (l : List α), l.length ≤ f → l.length ≤ g →
      chunksAux n f l = chunksAux n g l := by
  intro f
  induction f with
  | zero =>
    intro g l hf _
    cases l with
    | nil => cases g <;> rfl
    | cons a rest => simp at hf
  | succ f ih =>
    intro g l hf hg
    cases l with
    | nil => cases g <;> rfl
    | cons a rest =>
      cases g with
      | zero => simp at hg
      | succ g =>
        simp only [chunksAux]
        congr 1
        apply ih
        · calc (rest.drop (n - 1)).length ≤ rest.length := by
                simp [List.length_drop]
             _ ≤ f := by simpa using hf
        · calc (rest.drop (n - 1)).length ≤ rest.length := by
                simp [List.length_drop]
             _ ≤ g := by simpa using hg

theorem chunks_nil {α : Type*} (n : ℕ) : chunks n ([] : List α) = [] := rfl

theorem chunks_cons {α : Type*} (n : ℕ) (a : α) (rest : List α) :
    chunks n (a :: rest) = (a :: rest).take n :: chunks n (rest.drop (n - 1)) := by
  show chunksAux n (rest.length + 1) (a :: rest) = _
  simp only [chunksAux]
  congr 1
  exact chunksAux_congr n rest.length (rest.drop (n - 1)).length (rest.drop (n - 1))
    (by simp [List.length_drop]) le_rfl

/-- Concatenating the chunks gives back the original list (for positive n). -/
theorem flatten_chunks {α : Type*} (n : ℕ) (hn : 0 < n) :
    ∀ (l : List α), (chunks n l).flatten = l := by
  intro l
  generalize hl : l.length = k
  revert l
  induction k using Nat.strong_induction_on with
  | _ k ih =>
    intro l hl
    cases l with
    | nil => simp [chunks_nil]
    | cons a rest =>
      subst hl
      rw [chunks_cons, List.flatten_cons]
      rw [ih (rest.drop (n - 1)).length (by simp [List.length_drop]; omega) _ rfl]
      obtain ⟨m, rfl⟩ : ∃ m, n = m + 1 := ⟨n - 1, by omega⟩
      rw [List.take_succ_cons]
      simp only [Nat.add_sub_cancel]
      rw [List.cons_append, List.take_append_drop]

/-- Every chunk of a flattened replicated block of length n is the block itself. -/
theorem chunks_flatten_replicate {α : Type*} (n : ℕ) (r : List α) (hr : r.length = n)
    (hn : 0 < n) : ∀ (m : ℕ), chunks n (List.replicate m r).flatten = List.replicate m r := by
  intro m
  induction m with
  | zero => simp [chunks_nil]
  | succ m ih =>
    rw [List.replicate_succ, List.flatten_cons]
    obtain ⟨b, bs, hc⟩ : ∃ b bs, r = b :: bs := by
      cases r with
      | nil => simp at hr; omega
      | cons b bs => exact ⟨b, bs, rfl⟩
    have hres : r ++ (List.replicate m r).flatten
        = b :: (bs ++ (List.replicate m r).flatten) := by rw [hc]; rfl
    rw [hres, chunks_cons, ← hres]
    have htake : (r ++ (List.replicate m r).flatten).take n = r := by
      rw [← hr]; exact List.take_left r _
    have hdrop : (bs ++ (List.replicate m r).flatten).drop (n - 1)
        = (List.replicate m r).flatten := by
      have hbs : bs.length = n - 1 := by rw [hc] at hr; simp at hr; omega
      rw [← hbs]; exact List.drop_left bs _
    rw [htake, hdrop, ih]

theorem unpackBitsAux_congr :
    ∀ (f : ℕ) (g : ℕ) (l : List ℕ), l.length ≤ f → l.length ≤ g →
      unpackBitsAux f l = unpackBitsAux g l := by
  intro f
  induction f with
  | zero =>
    intro g l hf _
    cases l with
    | nil => cases g <;> rfl
    | cons a rest => simp at hf
  | succ f ih =>
    intro g l hf hg
    cases l with
    | nil => cases g <;> rfl
    | cons header rest =>
      cases g with
      | zero => simp at hg
      | succ g =>
        simp only [unpackBitsAux]
        simp only [List.length_cons, Nat.add_le_add_iff_right] at hf hg
        by_cases h1 : header = 128
        · simp only [if_pos h1]
          exact ih g rest hf hg
        · simp only [if_neg h1]
          by_cases h2 : 128 < header
          · simp only [if_pos h2]
            cases rest with
            | nil => rfl
            | cons b rest2 =>
              show (unpackBitsAux f rest2).map (fun r => List.replicate (256 - header + 1) b ++ r)
                  = (unpackBitsAux g rest2).map (fun r => List.replicate (256 - header + 1) b ++ r)
              rw [ih g rest2 (by simp at hf ⊢; omega) (by simp at hg ⊢; omega)]
          · simp only [if_neg h2]
            rw [ih g (rest.drop (header + 1))
              (le_trans (by simp [List.length_drop]) hf)
              (le_trans (by simp [List.length_drop]) hg)]

theorem unpackBits_nil : unpackBits [] = some [] := rfl

theorem unpackBits_cons_skip (rest : List ℕ) :
    unpackBits (128 :: rest) = unpackBits rest := by
  show unpackBitsAux (rest.length + 1) (128 :: rest) = _
  simp only [unpackBitsAux, if_pos rfl]
  exact unpackBitsAux_congr (rest.length + 1 - 1) rest.length rest (by simp) le_rfl

theorem unpackBits_cons_run (header b : ℕ) (rest : List ℕ) (hh : 128 < header) :
    unpackBits (header :: b :: rest)
      = (unpackBits rest).map (fun r => List.replicate (256 - header + 1) b ++ r) := by
  show unpackBitsAux (rest.length + 2) (header :: b :: rest) = _
  simp only [unpackBitsAux, if_neg (by omega : ¬ header = 128), if_pos hh]
  rw [unpackBitsAux_congr (rest.length + 1) rest.length rest (by simp) le_rfl]
  rfl

theorem unpackBits_run_missing_payload (header : ℕ) (hh : 128 < header) :
    unpackBits [header] = none := by
  show unpackBitsAux 1 [header] = none
  simp only [unpackBitsAux, if_neg (by omega : ¬ header = 128), if_pos hh]

theorem unpackBits_cons_literal (header : ℕ) (rest : List ℕ) (hh : header < 128) :
    unpackBits (header :: rest)
      = (unpackBits (rest.drop (header + 1))).map
          (fun r => rest.take (header + 1) ++ r) := by
  show unpackBitsAux (rest.length + 1) (header :: rest) = _
  simp only [unpackBitsAux, if_neg (by omega : ¬ header = 128),
    if_neg (by omega : ¬ 128 < header)]
  rw [unpackBitsAux_congr rest.length (rest.drop (header + 1)).length (rest.drop (header + 1))
    (by simp [List.length_drop]) le_rfl]
  rfl

/-- Decoding n copies of the run block [185, b] yields n copies of b repeated 72
times (185 is the run header for a length-72 run: 256 - 185 + 1 = 72). -/
theorem unpackBits_replicate_run (b : ℕ) :
    ∀ (n : ℕ), unpackBits (List.replicate n [185, b]).flatten
      = some (List.replicate n (List.replicate 72 b)).flatten := by
  intro n
  induction n with
  | zero => simp [unpackBits_nil]
  | succ n ih =>
    rw [List.replicate_succ, List.flatten_cons, List.replicate_succ, List.flatten_cons]
    have hc : ([185, b] : List ℕ) ++ (List.replicate n [185, b]).flatten
        = 185 :: b :: (List.replicate n [185, b]).flatten := rfl
    rw [hc, unpackBits_cons_run 185 b _ (by omega), ih]
    rfl

-- Sanity checks of the encoder translation against the documented scenario
-- (a run of five 0xFF bytes encodes to header 252 then 0xFF) and the
-- all-white packed scanline.
theorem sanity_pack_run_of_five : packBits (List.replicate 5 255) = [252, 255] := by decide

theorem sanity_unpack_run_of_five : unpackBits [252, 255] = some (List.replicate 5 255) := by decide

theorem sanity_pack_white_line : packBits (List.replicate 72 0) = [185, 0] := by decide

theorem sanity_pack_literal : packBits [10, 20, 30, 40] = [3, 10, 20, 30, 40] := by decide

theorem sanity_unpack_literal : unpackBits [3, 10, 20, 30, 40] = some [10, 20, 30, 40] := by decide

theorem sanity_pack_single_byte : packBits [0] = [] := by decide

theorem sanity_pack_dropped_tail : packBits (List.replicate 70 0 ++ [1, 2]) = [187, 0] := by decide

theorem rowToBitsAux_congr :
    ∀ (f : ℕ) (g : ℕ) (l : List ℕ), l.length ≤ f → l.length ≤ g →
      rowToBitsAux f l = rowToBitsAux g l := by
  intro f
  induction f with
  | zero =>
    intro g l hf _
    cases l with
    | nil => cases g <;> rfl
    | cons a rest => simp at hf
  | succ f ih =>
    intro g l hf hg
    cases l with
    | nil => cases g <;> rfl
    | cons p rest =>
      cases g with
      | zero => simp at hg
      | succ g =>
        simp only [rowToBitsAux]
        by_cases h7 : 7 ≤ rest.length
        · simp only [if_pos h7]
          have hf2 : (rest.drop 7).length ≤ f := by
            simp only [List.length_drop]; simp at hf; omega
          have hg2 : (rest.drop 7).length ≤ g := by
            simp only [List.length_drop]; simp at hg; omega
          rw [ih g (rest.drop 7) hf2 hg2]
        · simp only [if_neg h7]

theorem rowToBits_nil : rowToBits [] = some [] := rfl

theorem rowToBits_cons (p : ℕ) (rest : List ℕ) (h7 : 7 ≤ rest.length) :
    rowToBits (p :: rest)
      = (rowToBits (rest.drop 7)).map (fun bs => byteOf ((p :: rest).take 8) :: bs) := by
  show rowToBitsAux (rest.length + 1) (p :: rest) = _
  simp only [rowToBitsAux, if_pos h7]
  rw [rowToBitsAux_congr rest.length (rest.drop 7).length (rest.drop 7)
    (by simp [List.length_drop]) le_rfl]
  rfl

theorem genPackedData_nil : genPackedData [] = some [] := rfl

theorem genPackedData_cons_some (row : List ℕ) (rest : List (List ℕ)) (bitLine : List ℕ)
    (h : rowToBits row = some bitLine) :
    genPackedData (row :: rest)
      = (if bitLine.length = 72 then
          (genPackedData rest).map (fun bs => packBits bitLine ++ bs)
         else none) := by
  simp only [genPackedData, h]

theorem make_some (header : Header) (data d : List ℕ)
    (bitmap : Option (List (List ℕ))) (h : unpackBits data = some d) :
    MacPaintFile.make header data bitmap
      = (if (if 720 < (chunks 72 d).length then (chunks 72 d).take 720
             else chunks 72 d).length = 720
         then some ⟨header, data,
           (if 720 < (chunks 72 d).length then (chunks 72 d).take 720 else chunks 72 d),
           bitmap⟩
         else none) := by
  unfold MacPaintFile.make
  rw [h]

theorem make_none (header : Header) (data : List ℕ)
    (bitmap : Option (List (List ℕ))) (h : unpackBits data = none) :
    MacPaintFile.make header data bitmap = none := by
  unfold MacPaintFile.make
  rw [h]

theorem fromScanlines_some (bitmap : List (List ℕ)) (p : List ℕ)
    (h : genPackedData bitmap = some p) :
    fromScanlines bitmap = MacPaintFile.make Header.genDefault p (some bitmap) := by
  unfold fromScanlines
  rw [h]

theorem byteOf_white8 : byteOf (List.replicate 8 255) = 0 := by decide

theorem byteOf_pixel (v : ℕ) (hv : v ≠ 0) : byteOf (v :: List.replicate 7 255) = 0 := by
  show (List.range 8).foldl
    (fun byte j => if (v :: List.replicate 7 255).getD j 0 = BLACK
      then byte ||| (1 <<< (7 - j)) else byte) 0 = 0
  have h8 : List.range 8 = [0, 1, 2, 3, 4, 5, 6, 7] := by decide
  rw [h8]
  simp only [List.foldl_cons, List.foldl_nil]
  simp [BLACK, hv]

theorem rowToBits_white : ∀ (k : ℕ),
    rowToBits (List.replicate (8 * k) 255) = some (List.replicate k 0) := by
  intro k
  induction k with
  | zero => simp [rowToBits_nil]
  | succ k ih =>
    have h1 : 8 * (k + 1) = (8 * k + 7) + 1 := by omega
    rw [h1, List.replicate_succ]
    rw [rowToBits_cons 255 _ (by simp)]
    have hdrop : (List.replicate (8 * k + 7) 255).drop 7 = List.replicate (8 * k) 255 := by
      have harith : 8 * k + 7 - 7 = 8 * k := by omega
      rw [List.drop_replicate, harith]
    have htake : ((255 : ℕ) :: List.replicate (8 * k + 7) 255).take 8
        = List.replicate 8 255 := by
      rw [List.take_succ_cons, List.take_replicate]
      have : min 7 (8 * k + 7) = 7 := by omega
      rw [this]
      rfl
    rw [hdrop, htake, ih, byteOf_white8]
    rfl

theorem rowToBits_pixelRow (v : ℕ) (hv : v ≠ 0) :
    rowToBits (v :: List.replicate 575 255) = some (List.replicate 72 0) := by
  rw [rowToBits_cons v _ (by simp)]
  have hdrop : (List.replicate 575 255).drop 7 = List.replicate (8 * 71) 255 := by
    rw [List.drop_replicate]
  have htake : (v :: List.replicate 575 255).take 8 = v :: List.replicate 7 255 := by
    rw [List.take_succ_cons, List.take_replicate]
    rfl
  rw [hdrop, htake, rowToBits_white 71, byteOf_pixel v hv]
  rfl

theorem packBits_white72 : packBits (List.replicate 72 0) = [185, 0] := by decide

theorem genPackedData_white : ∀ (n : ℕ),
    genPackedData (List.replicate n (List.replicate 576 255))
      = some (List.replicate n ([185, 0] : List ℕ)).flatten := by
  intro n
  induction n with
  | zero => rfl
  | succ n ih =>
    rw [List.replicate_succ]
    have hwhite : rowToBits (List.replicate 576 255) = some (List.replicate 72 0) := by
      have h576 : (576 : ℕ) = 8 * 72 := by norm_num
      rw [h576, rowToBits_white 72]
    rw [genPackedData_cons_some _ _ _ hwhite, if_pos (by simp), ih, packBits_white72]
    simp [List.replicate_succ]

theorem fromScanlines_pixelBitmap (v : ℕ) (hv : v ≠ 0) :
    fromScanlines (pixelBitmap v) = some (pixelFile v) := by
  have hrow0 : rowToBits (v :: List.replicate 575 255) = some (List.replicate 72 0) :=
    rowToBits_pixelRow v hv
  have hgen : genPackedData (pixelBitmap v) = some whitePackedData := by
    show genPackedData ((v :: List.replicate 575 255)
      :: List.replicate 719 (List.replicate 576 255)) = _
    rw [genPackedData_cons_some _ _ _ hrow0, if_pos (by simp)]
    rw [genPackedData_white 719, packBits_white72]
    simp only [Option.map_some']
    simp only [whitePackedData]
    conv_rhs => rw [show (720 : ℕ) = 719 + 1 from rfl, List.replicate_succ, List.flatten_cons]
  have hunpack : unpackBits whitePackedData
      = some (List.replicate 720 (List.replicate 72 0)).flatten :=
    unpackBits_replicate_run 0 720
  have hchunks : chunks 72 (List.replicate 720 (List.replicate 72 (0 : ℕ))).flatten
      = List.replicate 720 (List.replicate 72 0) :=
    chunks_flatten_replicate 72 _ (by simp) (by norm_num) 720
  rw [fromScanlines_some _ _ hgen, make_some _ _ _ _ hunpack, hchunks]
  rw [if_neg (show ¬ 720 < (List.replicate 720 (List.replicate 72 (0 : ℕ))).length by simp)]
  rw [if_pos (by simp)]
  rfl

/-! ### Claim theorems -/

/-- C1: the claim states that decoding the encoder output reproduces any byte
sequence of length at most 127, in particular every 72-byte packed scanline.
This is false: the encoder loop, guarded by i < len(line) - 3, stops before
the last bytes when a run ends within 3 bytes of the end of the line, and the
trailing bytes are dropped.  On the 72-byte scanline of 70 zero bytes
followed by 1, 2 the encoder emits only [187, 0] and decoding returns the 70
zeros without the tail; a 1-byte input is dropped entirely. -/
theorem C1_roundtrip_fails :
    packBits (List.replicate 70 0 ++ [1, 2]) = [187, 0]
    ∧ unpackBits (packBits (List.replicate 70 0 ++ [1, 2])) = some (List.replicate 70 0)
    ∧ some (List.replicate 70 0) ≠ some (List.replicate 70 0 ++ [1, 2])
    ∧ packBits [0] = []
    ∧ unpackBits (packBits [0]) = some [] := by
  exact ⟨by decide, by decide, by decide, by decide, by decide⟩

/-- C2: the claim states that the quantization error share of a neighbor
falling outside the image bounds is dropped, never wrapped.  This is false:
for a pixel in column 0 the (-1, +1) offset produces Python index -1, which
indexes the LAST entry of the next error row instead of raising IndexError.
On the 2 x 2 grey input [[100, 255], [0, 110]] the wrapped share flips the
output pixel at row 1, column 1 from BLACK (per the spec rule, modelled by
ditherSpecModel) to WHITE (actual code). -/
theorem C2_dither_wraps_at_left_edge :
    dither [[100, 255], [0, 110]] = some [[0, 255], [0, 255]]
    ∧ ditherSpecModel [[100, 255], [0, 110]] = some [[0, 255], [0, 0]]
    ∧ dither [[100, 255], [0, 110]] ≠ ditherSpecModel [[100, 255], [0, 110]] := by
  exact ⟨by decide, by decide, by decide⟩

/-- C4: the claim states that every header, parsed or default, packs to
exactly 512 bytes.  The default does, and parsing exactly 512 bytes does,
but Header.from_file hands parse the ENTIRE file contents and parse keeps
everything from offset 308 onward as reserved, so a header parsed from a
513-byte file packs back to 513 bytes. -/
theorem C4_pack_length_follows_input_length :
    (Header.parse (List.replicate 513 0)).map (fun h => h.pack.length) = some 513
    ∧ (Header.parse (List.replicate 512 0)).map (fun h => h.pack.length) = some 512
    ∧ Header.genDefault.pack.length = 512 := by
  exact ⟨by decide, by decide, by decide⟩

/-- C5 counterexample: the claim states that decoding fails fatally whenever
a literal payload read (header + 1 bytes after a header in [0, 127]) would
run past the end of the input.  It does not: input [5] asks for 6 literal
bytes where none remain, yet decoding returns some [] without error, and
input [1, 7] asks for 2 and returns the one available byte. -/
theorem C5_counterexample_literal_overrun_is_silent :
    unpackBits [5] = some [] ∧ unpackBits [5] ≠ none
    ∧ unpackBits [1, 7] = some [7] := by
  exact ⟨by decide, by decide, by decide⟩

/-- C5 (amended): decoding consumes header-payload pairs until the input is
exhausted; a run header in [129, 255] whose single repeat byte is missing
fails fatally (IndexError), but a literal read past the end of input is
silently truncated: the available bytes are emitted and decoding ends. -/
theorem C5_payload_overrun_behavior (hr hl : ℕ) (bs : List ℕ)
    (h1 : 129 ≤ hr) (h2 : hr ≤ 255) (h3 : hl ≤ 127) (h4 : bs.length < hl + 1) :
    unpackBits [hr] = none ∧ unpackBits (hl :: bs) = some bs := by
  constructor
  · exact unpackBits_run_missing_payload hr (by omega)
  · rw [unpackBits_cons_literal hl bs (by omega)]
    rw [List.drop_eq_nil_of_le (by omega), List.take_of_length_le (by omega)]
    simp [unpackBits_nil]

/-- C5 witness: the amended statement at the concrete inputs [200] and
[3, 7]. -/
theorem C5_payload_overrun_behavior_witness :
    (129 ≤ 200 ∧ 200 ≤ 255 ∧ 3 ≤ 127 ∧ ([7] : List ℕ).length < 3 + 1)
    ∧ (unpackBits [200] = none ∧ unpackBits [3, 7] = some [7]) :=
  ⟨by decide, C5_payload_overrun_behavior 200 3 [7] (by decide) (by decide)
    (by decide) (by decide)⟩

/-- C3: the claim states the normalization always yields exactly 720 rows of
exactly 576 pixels.  False: when the source is both shorter than 720 and
narrower than 576, the height step appends WHITE rows already 576 wide and
the width step then right-pads EVERY row again, so the appended rows end up
576 + (576 - width) pixels wide.  For a 1 x 1 input the result has 720 rows
whose lengths are 576 (the original row) followed by 719 rows of 1151. -/
theorem C3_normalize_overpads_appended_rows :
    (fromPngNormalize 1 1 [[255]]).map List.length = 576 :: List.replicate 719 1151 := by
  unfold fromPngNormalize
  simp only [HEIGHT, WIDTH, WHITE]
  norm_num

/-- C6: when decompression yields more than 720 rows of 72 bytes the excess
trailing rows are discarded and the object is still built (the source prints
a warning in exactly the branch where the row count exceeds 720, witnessed
here by the 720 < count conjunct); 725 rows leave exactly 720 with 5
discarded.  When decompression yields fewer than 720 rows, the construction
asserts and fails (none). -/
theorem C6_excess_rows_truncated_fewer_fatal
    (hdr1 hdr2 : Header) (data1 d1 data2 d2 : List ℕ)
    (h1 : unpackBits data1 = some d1) (hlen1 : (chunks 72 d1).length = 725)
    (h2 : unpackBits data2 = some d2) (hlen2 : (chunks 72 d2).length < 720) :
    MacPaintFile.make hdr1 data1 none
        = some ⟨hdr1, data1, (chunks 72 d1).take 720, none⟩
    ∧ 720 < (chunks 72 d1).length
    ∧ (chunks 72 d1).length - 720 = 5
    ∧ MacPaintFile.make hdr2 data2 none = none := by
  refine ⟨?_, by omega, by omega, ?_⟩
  · rw [make_some _ _ _ _ h1]
    have hgt : 720 < (chunks 72 d1).length := by omega
    simp only [if_pos hgt]
    rw [if_pos (show ((chunks 72 d1).take 720).length = 720 by
      simp [List.length_take]; omega)]
  · rw [make_some _ _ _ _ h2]
    have hng : ¬ 720 < (chunks 72 d2).length := by omega
    simp only [if_neg hng]
    rw [if_neg (by omega)]

/-- C6 witness: the statement at concrete compressed inputs, 725 rows of
zeros on one side and empty data (0 rows) on the other. -/
theorem C6_excess_rows_truncated_fewer_fatal_witness :
    (unpackBits excessData = some (List.replicate 725 (List.replicate 72 0)).flatten
      ∧ (chunks 72 (List.replicate 725 (List.replicate 72 (0 : ℕ))).flatten).length = 725
      ∧ unpackBits [] = some []
      ∧ (chunks 72 ([] : List ℕ)).length < 720)
    ∧ (MacPaintFile.make Header.genDefault excessData none
        = some ⟨Header.genDefault, excessData,
            (chunks 72 (List.replicate 725 (List.replicate 72 (0 : ℕ))).flatten).take 720,
            none⟩
      ∧ 720 < (chunks 72 (List.replicate 725 (List.replicate 72 (0 : ℕ))).flatten).length
      ∧ (chunks 72 (List.replicate 725 (List.replicate 72 (0 : ℕ))).flatten).length - 720 = 5
      ∧ MacPaintFile.make Header.genDefault [] none = none) := by
  have hu : unpackBits excessData
      = some (List.replicate 725 (List.replicate 72 0)).flatten :=
    unpackBits_replicate_run 0 725
  have hc : chunks 72 (List.replicate 725 (List.replicate 72 (0 : ℕ))).flatten
      = List.replicate 725 (List.replicate 72 0) :=
    chunks_flatten_replicate 72 _ (by simp) (by norm_num) 725
  have hl : (chunks 72 (List.replicate 725 (List.replicate 72 (0 : ℕ))).flatten).length
      = 725 := by rw [hc]; simp
  exact ⟨⟨hu, hl, rfl, by decide⟩,
    C6_excess_rows_truncated_fewer_fatal Header.genDefault Header.genDefault
      excessData _ [] [] hu hl rfl (by decide)⟩

/-- Reading the big-endian encoding of v back in little-endian order returns
v exactly when the two encodings coincide (for v below 2^32). -/
theorem natLE32_bytesBE32_iff (v : ℕ) (hv : v < 4294967296) :
    natLE32 (bytesBE32 v) = v ↔ bytesBE32 v = bytesLE32 v := by
  simp only [natLE32, bytesBE32, bytesLE32, List.getD_cons_zero, List.getD_cons_succ,
    List.cons.injEq, and_true]
  have e1 : v / 16777216 % 256 = v / 16777216 := Nat.mod_eq_of_lt (by omega)
  have e2 : v / 256 / 256 = v / 65536 := by
    rw [Nat.div_div_eq_div_mul]
  have e3 : v / 65536 / 256 = v / 16777216 := by
    rw [Nat.div_div_eq_div_mul]
  rw [e1]
  omega

theorem getD_lt_256 (l : List ℕ) (h : ∀ b ∈ l, b < 256) (i : ℕ) : l.getD i 0 < 256 := by
  by_cases hi : i < l.length
  · rw [List.getD_eq_getElem l 0 hi]
    exact h _ (List.getElem_mem hi)
  · rw [List.getD_eq_default l 0 (by omega)]
    norm_num

/-- C7: Header.parse reads the version in native (little-endian) order while
Header.pack writes it big-endian.  For a header parsed from 512 bytes,
re-parsing the packed bytes preserves patterns and reserved exactly, and
preserves the version exactly when its big-endian and little-endian
encodings coincide. -/
theorem C7_header_parse_pack_roundtrip (raw : List ℕ) (hdr : Header)
    (hlen : raw.length = 512) (hbytes : ∀ b ∈ raw, b < 256)
    (hp : Header.parse raw = some hdr) :
    ∃ hdr2, Header.parse hdr.pack = some hdr2
      ∧ hdr2.patterns = hdr.patterns
      ∧ hdr2.reserved = hdr.reserved
      ∧ (hdr2.version = hdr.version
          ↔ bytesBE32 hdr.version = bytesLE32 hdr.version) := by
  unfold Header.parse at hp
  rw [if_pos (by omega)] at hp
  rw [Option.some_inj] at hp
  subst hp
  have hb4 : ∀ b ∈ raw.take 4, b < 256 := fun b hb => hbytes b (List.mem_of_mem_take hb)
  have hv32 : natLE32 (raw.take 4) < 4294967296 := by
    have h0 := getD_lt_256 _ hb4 0
    have h1 := getD_lt_256 _ hb4 1
    have h2 := getD_lt_256 _ hb4 2
    have h3 := getD_lt_256 _ hb4 3
    simp only [natLE32]
    omega
  have hseg : ((raw.drop 4).take 304).length = 304 := by
    simp [List.length_take, List.length_drop, hlen]
  have hres : (raw.drop 308).length = 204 := by simp [List.length_drop, hlen]
  have hflat : (chunks 8 ((raw.drop 4).take 304)).flatten = (raw.drop 4).take 304 :=
    flatten_chunks 8 (by norm_num) _
  have hA : (bytesBE32 (natLE32 (raw.take 4))).length = 4 := rfl
  have hpack : Header.pack ⟨natLE32 (raw.take 4), chunks 8 ((raw.drop 4).take 304),
      raw.drop 308, raw⟩
      = bytesBE32 (natLE32 (raw.take 4)) ++ ((raw.drop 4).take 304 ++ raw.drop 308) := by
    simp only [Header.pack, hflat, List.append_assoc]
  have hplen : (bytesBE32 (natLE32 (raw.take 4))
      ++ ((raw.drop 4).take 304 ++ raw.drop 308)).length = 512 := by
    simp [List.length_append, hA, hseg, hres]
  have htake4 : (bytesBE32 (natLE32 (raw.take 4))
      ++ ((raw.drop 4).take 304 ++ raw.drop 308)).take 4
      = bytesBE32 (natLE32 (raw.take 4)) := by
    have hh := List.take_left (bytesBE32 (natLE32 (raw.take 4)))
      ((raw.drop 4).take 304 ++ raw.drop 308)
    rwa [hA] at hh
  have hdrop4 : (bytesBE32 (natLE32 (raw.take 4))
      ++ ((raw.drop 4).take 304 ++ raw.drop 308)).drop 4
      = (raw.drop 4).take 304 ++ raw.drop 308 := by
    have hh := List.drop_left (bytesBE32 (natLE32 (raw.take 4)))
      ((raw.drop 4).take 304 ++ raw.drop 308)
    rwa [hA] at hh
  have htake304 : ((raw.drop 4).take 304 ++ raw.drop 308).take 304
      = (raw.drop 4).take 304 := by
    have hh := List.take_left ((raw.drop 4).take 304) (raw.drop 308)
    rwa [hseg] at hh
  have hdrop308 : (bytesBE32 (natLE32 (raw.take 4))
      ++ ((raw.drop 4).take 304 ++ raw.drop 308)).drop 308 = raw.drop 308 := by
    rw [← List.append_assoc]
    have hlen308 : (bytesBE32 (natLE32 (raw.take 4)) ++ (raw.drop 4).take 304).length
        = 308 := by
      simp [List.length_append, hA, hseg]
    have hh := List.drop_left (bytesBE32 (natLE32 (raw.take 4))
      ++ (raw.drop 4).take 304) (raw.drop 308)
    rwa [hlen308] at hh
  refine ⟨⟨natLE32 (bytesBE32 (natLE32 (raw.take 4))),
    chunks 8 ((raw.drop 4).take 304), raw.drop 308,
    bytesBE32 (natLE32 (raw.take 4)) ++ ((raw.drop 4).take 304 ++ raw.drop 308)⟩,
    ?_, rfl, rfl, ?_⟩
  · unfold Header.parse
    rw [hpack]
    rw [if_pos (by rw [hplen]; norm_num)]
    rw [htake4, hdrop4, htake304, hdrop308]
  · show natLE32 (bytesBE32 (natLE32 (raw.take 4))) = natLE32 (raw.take 4) ↔ _
    exact natLE32_bytesBE32_iff _ hv32

/-- C7 witness: the round-trip statement at the concrete 512-byte input. -/
theorem C7_header_parse_pack_roundtrip_witness :
    (wraw.length = 512 ∧ (∀ b ∈ wraw, b < 256) ∧ Header.parse wraw = some wHdr)
    ∧ ∃ hdr2, Header.parse wHdr.pack = some hdr2
      ∧ hdr2.patterns = wHdr.patterns
      ∧ hdr2.reserved = wHdr.reserved
      ∧ (hdr2.version = wHdr.version
          ↔ bytesBE32 wHdr.version = bytesLE32 wHdr.version) :=
  ⟨⟨by decide, by decide, by decide⟩,
   C7_header_parse_pack_roundtrip wraw wHdr (by decide) (by decide) (by decide)⟩

/-- C8 counterexample: the claim says any pixel value other than 0 or 255
makes construction fail fatally; the 720 x 576 bitmap whose top-left pixel
is 17 is accepted without error. -/
theorem C8_counterexample_bad_pixel_accepted :
    (fromScanlines (pixelBitmap 17)).isSome = true := by
  rw [fromScanlines_pixelBitmap 17 (by decide)]
  rfl

/-- C8 (amended): building a LegacyImage from a bitmap requires every row to
pack to exactly 72 bytes: a row whose length is not a multiple of 8 hits an
IndexError and a row not 576 pixels wide fails the assert, both fatal.
Pixel values are NOT validated: only equality with BLACK (0) is tested, so
any non-zero pixel -- 255 or not -- is treated as WHITE, and a bitmap
containing values outside {0, 255} is accepted, packing exactly as if those
pixels were WHITE. -/
theorem C8_pixels_not_validated (v : ℕ) (hv : v ≠ 0) :
    fromScanlines (pixelBitmap v) = some (pixelFile v)
    ∧ (fromScanlines (pixelBitmap v)).isSome = true
    ∧ (pixelFile v).data = (pixelFile 255).data
    ∧ fromScanlines [[0]] = none
    ∧ fromScanlines [List.replicate 64 0] = none := by
  refine ⟨fromScanlines_pixelBitmap v hv, ?_, rfl, ?_, ?_⟩
  · rw [fromScanlines_pixelBitmap v hv]
    rfl
  · decide
  · decide

/-- C8 witness: the amended statement at pixel value 17. -/
theorem C8_pixels_not_validated_witness :
    ((17 : ℕ) ≠ 0)
    ∧ (fromScanlines (pixelBitmap 17) = some (pixelFile 17)
      ∧ (fromScanlines (pixelBitmap 17)).isSome = true
      ∧ (pixelFile 17).data = (pixelFile 255).data
      ∧ fromScanlines [[0]] = none
      ∧ fromScanlines [List.replicate 64 0] = none) :=
  ⟨by decide, C8_pixels_not_validated 17 (by decide)⟩

/-- C10: an object built by from_scanlines caches the supplied bitmap, and
its bitmap property returns exactly that bitmap; the derivation from packed
scanlines is consulted only when no bitmap was cached (which holds by
definition of bitmapView). -/
theorem C10_bitmap_returns_cached (bm : List (List ℕ)) (f : MacPaintFile)
    (h : fromScanlines bm = some f) :
    f.bitmapCached = some bm ∧ f.bitmapView = some bm := by
  cases hg : genPackedData bm with
  | none =>
    unfold fromScanlines at h
    rw [hg] at h
    cases h
  | some p =>
    rw [fromScanlines_some bm p hg] at h
    cases hu : unpackBits p with
    | none =>
      rw [make_none _ _ _ hu] at h
      cases h
    | some d =>
      rw [make_some _ _ _ _ hu] at h
      by_cases hlen : (if 720 < (chunks 72 d).length then (chunks 72 d).take 720
          else chunks 72 d).length = 720
      · rw [if_pos hlen] at h
        rw [Option.some_inj] at h
        subst h
        exact ⟨rfl, rfl⟩
      · rw [if_neg hlen] at h
        cases h

/-- C10 witness: the statement at the all-white bitmap. -/
theorem C10_bitmap_returns_cached_witness :
    fromScanlines allWhiteBitmap = some (pixelFile 255)
    ∧ (pixelFile 255).bitmapCached = some allWhiteBitmap
    ∧ (pixelFile 255).bitmapView = some allWhiteBitmap := by
  have hall : allWhiteBitmap = pixelBitmap 255 := by
    unfold allWhiteBitmap pixelBitmap
    rw [show (720 : ℕ) = 719 + 1 from rfl, List.replicate_succ]
    rfl
  have h1 : fromScanlines allWhiteBitmap = some (pixelFile 255) := by
    rw [hall]
    exact fromScanlines_pixelBitmap 255 (by decide)
  obtain ⟨hc, hv⟩ := C10_bitmap_returns_cached allWhiteBitmap (pixelFile 255) h1
  refine ⟨h1, ?_, ?_⟩
  · rw [hc, hall]
  · rw [hv, hall]

end MacPaintModel
